import Mathlib

/-!
Verification of the csv-i18n conversion tool (src/index.js).

The development shallowly embeds the transformation core of the tool:
key derivation from relative file paths, per-file aggregation of rows
into per-language translation tables plus a key set, the flat-to-nested
tree builder `nestObject`, and the two emitters (`typescript` mode with
a key registry, `i18next` mode with nested JSON objects).

JavaScript objects are modelled as association lists with first-match
lookup and replace-in-place/append-at-end update, which matches JS
property insertion-order semantics for the string keys used here.
-/

namespace CsvI18n

/-! ### String utilities

`String.prototype.split(sep)` for a one-character separator, the
corresponding join, lower-casing, and trimming, all defined on the
underlying character list so that they compute by `rfl`/`decide`. -/

/-- Character-level splitter: `splitCharsAux c cs acc` splits `cs` at every
occurrence of `c`, with `acc` holding the (reversed) current segment. -/
def splitCharsAux (c : Char) : List Char → List Char → List (List Char)
  | [], acc => [acc.reverse]
  | x :: xs, acc =>
    if x = c then acc.reverse :: splitCharsAux c xs []
    else splitCharsAux c xs (x :: acc)

/-- JS `s.split(c)` for a single-character separator. -/
def splitOnChar (c : Char) (s : String) : List String :=
  (splitCharsAux c s.data []).map String.mk

/-- Join character lists with a single-character separator. -/
def joinSep (c : Char) : List (List Char) → List Char
  | [] => []
  | [x] => x
  | x :: y :: rest => x ++ c :: joinSep c (y :: rest)

/-- JS `parts.join(c)` for a single-character separator. -/
def joinWithChar (c : Char) (l : List String) : String :=
  String.mk (joinSep c (l.map String.data))

/-- Splitting a dotted key, as in `key.split('.')`. -/
def splitKey (s : String) : List String := splitOnChar '.' s

/-- Joining dotted-key segments, as in `parts.join('.')`. -/
def joinKey (l : List String) : String := joinWithChar '.' l

/-- Character-wise map over a string. -/
def mapChar (f : Char → Char) (s : String) : String := String.mk (s.data.map f)

/-- JS `s.toLowerCase()` (restricted to the ASCII behaviour of `Char.toLower`). -/
def lowerStr (s : String) : String := mapChar Char.toLower s

/-- JS `s.trim()`: drop leading and trailing whitespace. -/
def trimStr (s : String) : String :=
  String.mk (((s.data.dropWhile Char.isWhitespace).reverse.dropWhile Char.isWhitespace).reverse)

theorem splitCharsAux_ne_nil (c : Char) (cs acc : List Char) :
    splitCharsAux c cs acc ≠ [] := by
  induction cs generalizing acc with
  | nil => simp [splitCharsAux]
  | cons x xs ih =>
    simp only [splitCharsAux]
    split
    · simp
    · exact ih _

theorem joinSep_splitCharsAux (c : Char) (cs acc : List Char) :
    joinSep c (splitCharsAux c cs acc) = acc.reverse ++ cs := by
  induction cs generalizing acc with
  | nil => simp [splitCharsAux, joinSep]
  | cons x xs ih =>
    simp only [splitCharsAux]
    split
    · rename_i hx
      obtain ⟨h, t, ht⟩ : ∃ h t, splitCharsAux c xs [] = h :: t := by
        cases hs : splitCharsAux c xs [] with
        | nil => exact absurd hs (splitCharsAux_ne_nil c xs [])
        | cons h t => exact ⟨h, t, rfl⟩
      have := ih ([] : List Char)
      rw [ht] at this ⊢
      simp only [joinSep, List.reverse_nil, List.nil_append] at this ⊢
      rw [this, hx]
    · rw [ih]
      simp

theorem joinKey_splitKey (s : String) : joinKey (splitKey s) = s := by
  unfold joinKey splitKey joinWithChar splitOnChar
  rw [List.map_map]
  have hmk : (String.data ∘ String.mk) = id := by
    funext l; rfl
  rw [hmk, List.map_id, joinSep_splitCharsAux]
  cases s with
  | mk data => rfl

theorem splitKey_ne_nil (s : String) : splitKey s ≠ [] := by
  unfold splitKey splitOnChar
  intro h
  exact splitCharsAux_ne_nil '.' s.data [] (List.map_eq_nil_iff.mp h)

theorem joinSep_splitCharsAux_map (cs acc : List Char) :
    joinSep '.' (splitCharsAux '/' cs acc) =
      acc.reverse ++ cs.map (fun c => if c = '/' then '.' else c) := by
  induction cs generalizing acc with
  | nil => simp [splitCharsAux, joinSep]
  | cons x xs ih =>
    simp only [splitCharsAux, List.map_cons]
    split
    · rename_i hx
      obtain ⟨h, t, ht⟩ : ∃ h t, splitCharsAux '/' xs [] = h :: t := by
        cases hs : splitCharsAux '/' xs [] with
        | nil => exact absurd hs (splitCharsAux_ne_nil '/' xs [])
        | cons h t => exact ⟨h, t, rfl⟩
      have := ih ([] : List Char)
      rw [ht] at this ⊢
      simp only [joinSep, List.reverse_nil, List.nil_append] at this ⊢
      rw [this]
    · rename_i hx
      rw [ih]
      simp [hx]

/-! ### Key derivation (src/index.js lines 108-127)

`baseKey` embeds
`relativePath.replace(/\\/g, '/').replace(/\.csv$/i, '').split('/').join('.')`
and `fullKeyOf` embeds `baseKey ? baseKey + '.' + key : key`. -/

/-- JS `relativePath.replace(/\\/g, '/')`: standardize path separators. -/
def normSlashes (s : String) : String :=
  mapChar (fun c => if c = '\\' then '/' else c) s

/-- JS `s.replace(/\.csv$/i, '')`: strip one trailing `.csv`, case-insensitively. -/
def stripCsvExt (s : String) : String :=
  match s.data.reverse with
  | cv :: cs2 :: cc :: cd :: rest =>
    if cd = '.' ∧ cc.toLower = 'c' ∧ cs2.toLower = 's' ∧ cv.toLower = 'v' then
      String.mk rest.reverse
    else s
  | _ => s

/-- The base namespace derived from a CSV file's path relative to the input
root (src/index.js lines 109-113). -/
def baseKey (relativePath : String) : String :=
  joinWithChar '.' (splitOnChar '/' (stripCsvExt (normSlashes relativePath)))

/-- The fully qualified key of a row (src/index.js line 127):
`baseKey ? baseKey + '.' + key : key` (a JS string is falsy iff empty). -/
def fullKeyOf (base key : String) : String :=
  if base = "" then key else base ++ "." ++ key

/-- Modelled from the spec (section 4.3): the base namespace obtained by
normalizing separators to `/`, stripping a trailing `.csv` case-insensitively,
and replacing each `/` with `.`; used only to compare against `baseKey`. -/
def specBaseKey (relativePath : String) : String :=
  mapChar (fun c => if c = '/' then '.' else c) (stripCsvExt (normSlashes relativePath))

theorem baseKey_eq_specBaseKey (rel : String) : baseKey rel = specBaseKey rel := by
  unfold baseKey specBaseKey joinWithChar splitOnChar mapChar
  rw [List.map_map]
  have hmk : (String.data ∘ String.mk) = id := by
    funext l; rfl
  rw [hmk, List.map_id, joinSep_splitCharsAux_map]
  rfl

/-! ### JS objects as association lists

`lookupA` is property read (first match), `setA` is property write
(update in place, else append), matching JS insertion-order semantics. -/

/-- Property read on a JS object modelled as an association list. -/
def lookupA {α : Type} : List (String × α) → String → Option α
  | [], _ => none
  | (k, v) :: rest, key => if k = key then some v else lookupA rest key

/-- Property write on a JS object: replace the first binding in place,
or append a new binding at the end. -/
def setA {α : Type} : List (String × α) → String → α → List (String × α)
  | [], k, v => [(k, v)]
  | (k', v') :: rest, k, v =>
    if k' = k then (k, v) :: rest else (k', v') :: setA rest k v

theorem lookupA_setA {α : Type} (t : List (String × α)) (k : String) (v : α)
    (k' : String) :
    lookupA (setA t k v) k' = if k' = k then some v else lookupA t k' := by
  induction t with
  | nil =>
    rcases eq_or_ne k' k with h | h
    · subst h; simp [setA, lookupA]
    · simp [setA, lookupA, h, Ne.symm h]
  | cons p rest ih =>
    obtain ⟨pk, pv⟩ := p
    rcases eq_or_ne pk k with hk | hk
    · subst hk
      rcases eq_or_ne k' pk with h | h
      · subst h; simp [setA, lookupA]
      · simp [setA, lookupA, h, Ne.symm h]
    · rcases eq_or_ne pk k' with h | h
      · subst h
        simp [setA, lookupA, hk]
      · simp [setA, lookupA, hk, h, ih]

theorem lookupA_append {α : Type} (t u : List (String × α)) (k : String) :
    lookupA (t ++ u) k = ((lookupA t k).orElse (fun _ => lookupA u k)) := by
  induction t with
  | nil => simp [lookupA]
  | cons p rest ih =>
    obtain ⟨pk, pv⟩ := p
    by_cases h : pk = k <;> simp [lookupA, h, ih]

theorem setA_fresh {α : Type} (t : List (String × α)) (k : String) (v : α)
    (h : lookupA t k = none) : setA t k v = t ++ [(k, v)] := by
  induction t with
  | nil => simp [setA]
  | cons p rest ih =>
    obtain ⟨pk, pv⟩ := p
    by_cases hk : pk = k
    · simp [lookupA, hk] at h
    · simp [lookupA, hk] at h
      simp [setA, hk, ih h]

theorem lookupA_isSome_iff_mem {α : Type} (t : List (String × α)) (k : String) :
    (lookupA t k).isSome ↔ k ∈ t.map Prod.fst := by
  induction t with
  | nil => simp [lookupA]
  | cons p rest ih =>
    obtain ⟨pk, pv⟩ := p
    by_cases h : pk = k <;> simp [lookupA, h, ih]
    · exact fun he => absurd he.symm h

/-! ### Translation aggregation (src/index.js lines 77-149)

A parsed CSV file is its path relative to the input root, the header
fields reported by the parser, and the data rows (each row a mapping
from header field to cell text; an absent binding models an
`undefined`/`null` cell). -/

/-- A row of a parsed CSV: column name to cell value, absent = undefined. -/
abbrev Row := List (String × String)

/-- A successfully parsed CSV file. -/
structure CsvFile where
  relPath : String
  fields : List String
  rows : List Row

/-- A duplicate-key warning (src/index.js line 136), naming the language,
the fully qualified key, and the old and new values. -/
structure DupWarn where
  lang : String
  fullKey : String
  oldVal : String
  newVal : String
deriving DecidableEq

/-- The mutable accumulator of `convertCsvToTs`: `translationsByLang`
(line 77), `allKeys` (line 78, a JS `Set`, insertion-ordered), and the
duplicate-key warnings emitted so far. -/
structure AggState where
  translationsByLang : List (String × List (String × String))
  allKeys : List String
  warns : List DupWarn

/-- `languageColumns` (line 99): every header field whose lower-casing is
not `"key"`. -/
def languageColumns (fields : List String) : List String :=
  fields.filter (fun f => lowerStr f != "key")

/-- JS `Set.prototype.add`: append if not already present. -/
def addKeySet (ks : List String) (k : String) : List String :=
  if k ∈ ks then ks else ks ++ [k]

/-- Row-key validity (line 122): the row is kept iff `row.key` is a defined
string that is non-blank after trimming. -/
def rowKeyValid : Option String → Bool
  | none => false
  | some s => !(trimStr s == "")

/-- One iteration of the `languageColumns.forEach` body (lines 129-141):
read the cell for `lang`; if defined and non-empty, warn when an existing
different (truthy) value is being replaced, then overwrite. -/
def procLang (row : Row) (fk : String) (st : AggState) (lang : String) : AggState :=
  match lookupA row lang with
  | none => st
  | some v =>
    if v = "" then st
    else
      let tbl := (lookupA st.translationsByLang lang).getD []
      let warned :=
        match lookupA tbl fk with
        | some o => if o ≠ "" ∧ o ≠ v then st.warns ++ [⟨lang, fk, o, v⟩] else st.warns
        | none => st.warns
      { st with translationsByLang := setA st.translationsByLang lang (setA tbl fk v),
                warns := warned }

/-- The `parsed.data.forEach` body (lines 119-144): skip rows with an
invalid key, otherwise update every language column and record the fully
qualified key in `allKeys`. -/
def procRow (base : String) (langs : List String) (st : AggState) (row : Row) : AggState :=
  if rowKeyValid (lookupA row "key") then
    let fk := fullKeyOf base ((lookupA row "key").getD "")
    let st1 := langs.foldl (procLang row fk) st
    { st1 with allKeys := addKeySet st1.allKeys fk }
  else st

/-- Initialization of per-language tables (lines 102-106): ensure an entry
exists for `lang` in `translationsByLang`. -/
def initLang (t : List (String × List (String × String))) (lang : String) :
    List (String × List (String × String)) :=
  if (lookupA t lang).isSome then t else t ++ [(lang, [])]

/-- Processing of one parsed CSV file (lines 80-149). -/
def procFile (st : AggState) (f : CsvFile) : AggState :=
  let langs := languageColumns f.fields
  let st1 := { st with translationsByLang := langs.foldl initLang st.translationsByLang }
  f.rows.foldl (procRow (baseKey f.relPath) langs) st1

/-- Aggregation over all discovered files, in discovery order. -/
def processFiles (files : List CsvFile) : AggState :=
  files.foldl procFile ⟨[], [], []⟩

/-! ### Emitters (src/index.js lines 151-273) -/

/-- Code-point-wise lexicographic comparison of character lists, the order
used by the default JS `Array.prototype.sort` comparator on strings. -/
def leChars : List Char → List Char → Bool
  | [], _ => true
  | _ :: _, [] => false
  | a :: as, b :: bs =>
    if a.toNat < b.toNat then true
    else if b.toNat < a.toNat then false
    else leChars as bs

/-- Lexicographic comparison of strings. -/
def leStr (a b : String) : Bool := leChars a.data b.data

/-- One step of insertion sort with respect to `leStr`. -/
def insertSorted (x : String) : List String → List String
  | [] => [x]
  | y :: ys => if leStr x y then x :: y :: ys else y :: insertSorted x ys

/-- `Object.keys(x).sort()`: lexicographic insertion sort of the keys. -/
def sortStrings : List String → List String
  | [] => []
  | x :: xs => insertSorted x (sortStrings xs)

/-- The sorted flat mapping written for one language in `typescript` mode
(lines 238-242). -/
def sortTable (tbl : List (String × String)) : List (String × String) :=
  (sortStrings (tbl.map Prod.fst)).map (fun k => (k, (lookupA tbl k).getD ""))

/-- The `key.ts` registry content (lines 217-221): every collected key
mapped to itself, sorted. -/
def keyRegistry (ks : List String) : List (String × String) :=
  (sortStrings ks).map (fun k => (k, k))

/-- A nested JSON value: a string leaf or a JS object. -/
inductive JsNode where
  | str : String → JsNode
  | obj : List (String × JsNode) → JsNode

/-- Diagnostics of `nestObject` (lines 182 and 189). -/
inductive NestDiag where
  | overwriteNode (part key val : String)
  | abandonPath (part key : String)
deriving DecidableEq

/-- The per-key loop body of `nestObject` (lines 172-204), recursing along
the dot-separated parts of `key`: at the last part, overwrite (warning if an
object node is replaced); at an inner part, abandon the key entirely if the
part holds a string, descend into an existing object, or create a fresh one. -/
def insertParts (key : String) (o : List (String × JsNode)) :
    List String → String → List (String × JsNode) × List NestDiag
  | [], _ => (o, [])
  | [x], v =>
    match lookupA o x with
    | some (.obj _) => (setA o x (.str v), [.overwriteNode x key v])
    | _ => (setA o x (.str v), [])
  | x :: y :: rest, v =>
    match lookupA o x with
    | some (.str _) => (o, [.abandonPath x key])
    | some (.obj child) =>
      let r := insertParts key child (y :: rest) v
      (setA o x (.obj r.1), r.2)
    | none =>
      let r := insertParts key [] (y :: rest) v
      (setA o x (.obj r.1), r.2)

/-- `nestObject` (lines 169-207): fold the flat table into a nested tree,
iterating keys in insertion order. -/
def nestObject (flat : List (String × String)) :
    List (String × JsNode) × List NestDiag :=
  flat.foldl
    (fun acc kv =>
      let r := insertParts kv.1 acc.1 (splitKey kv.1) kv.2
      (r.1, acc.2 ++ r.2))
    ([], [])

/-- One emitted output file. -/
inductive OutFile where
  | registry : List (String × String) → OutFile
  | flatLang : String → List (String × String) → OutFile
  | nestedLang : String → List (String × JsNode) → OutFile

/-- The output format selected by `--format`. -/
inductive OutFormat where
  | typescript
  | i18next

/-- `generateTypeScriptFiles` (lines 211-253): the `key.ts` registry when
any key was collected, then one sorted flat file per language. -/
def generateTypeScriptFiles (languages : List String)
    (translationsByLang : List (String × List (String × String)))
    (allKeys : List String) : List OutFile :=
  (if allKeys.isEmpty then [] else [.registry (keyRegistry allKeys)]) ++
    languages.map (fun l => .flatLang l (sortTable ((lookupA translationsByLang l).getD [])))

/-- `generateI18nextFiles` (lines 255-273): one nested file per language,
with no sorting applied. -/
def generateI18nextFiles (languages : List String)
    (translationsByLang : List (String × List (String × String))) : List OutFile :=
  languages.map (fun l => .nestedLang l (nestObject ((lookupA translationsByLang l).getD [])).1)

/-- `convertCsvToTs` (lines 46-166), restricted to its transformation
contract: `none` when nothing is written (no CSV files, or no language
data), otherwise the list of files emitted for the selected format. -/
def convertCsvToTs (fmt : OutFormat) (files : List CsvFile) : Option (List OutFile) :=
  if files.isEmpty then none
  else
    let st := processFiles files
    let languages := st.translationsByLang.map Prod.fst
    if languages.isEmpty then none
    else some (match fmt with
      | .typescript => generateTypeScriptFiles languages st.translationsByLang st.allKeys
      | .i18next => generateI18nextFiles languages st.translationsByLang)

/-! ### Aggregation lemmas -/

theorem foldl_preserve {σ α : Type} (P : σ → Prop) (f : σ → α → σ)
    (h : ∀ st a, P st → P (f st a)) :
    ∀ (l : List α) (st : σ), P st → P (l.foldl f st) := by
  intro l
  induction l with
  | nil => intro st hst; exact hst
  | cons a as ih => intro st hst; exact ih _ (h st a hst)

theorem mem_addKeySet (ks : List String) (k k' : String) :
    k' ∈ addKeySet ks k ↔ k' ∈ ks ∨ k' = k := by
  unfold addKeySet
  split
  · rename_i h
    constructor
    · exact Or.inl
    · rintro (h' | rfl)
      · exact h'
      · exact h
  · simp

theorem procLang_allKeys (row : Row) (fk : String) (st : AggState) (lang : String) :
    (procLang row fk st lang).allKeys = st.allKeys := by
  unfold procLang
  cases lookupA row lang with
  | none => rfl
  | some v =>
    simp only
    split <;> rfl

theorem foldl_procLang_allKeys (row : Row) (fk : String) :
    ∀ (langs : List String) (st : AggState),
      (langs.foldl (procLang row fk) st).allKeys = st.allKeys := by
  intro langs
  induction langs with
  | nil => intro st; rfl
  | cons l ls ih => intro st; rw [List.foldl_cons, ih, procLang_allKeys]

theorem procLang_warns_mono (row : Row) (fk : String) (st : AggState) (lang : String) :
    ∃ w, (procLang row fk st lang).warns = st.warns ++ w := by
  unfold procLang
  cases lookupA row lang with
  | none => exact ⟨[], by simp⟩
  | some v =>
    simp only
    split
    · exact ⟨[], by simp⟩
    · cases h : lookupA ((lookupA st.translationsByLang lang).getD []) fk with
      | none => exact ⟨[], by simp [h]⟩
      | some o =>
        by_cases ho : o ≠ "" ∧ o ≠ v
        · exact ⟨[⟨lang, fk, o, v⟩], by simp [h, ho]⟩
        · exact ⟨[], by simp [h, ho]⟩

theorem procLang_entry (row : Row) (fk : String) (st : AggState) (lang : String)
    (L : String) (tbl' : List (String × String)) (k v : String)
    (hL : lookupA (procLang row fk st lang).translationsByLang L = some tbl')
    (hk : lookupA tbl' k = some v) :
    (∃ tbl, lookupA st.translationsByLang L = some tbl ∧ lookupA tbl k = some v) ∨
      (k = fk ∧ v ≠ "") := by
  unfold procLang at hL
  cases hcell : lookupA row lang with
  | none =>
    rw [hcell] at hL
    exact Or.inl ⟨tbl', hL, hk⟩
  | some cv =>
    rw [hcell] at hL
    simp only at hL
    split at hL
    · exact Or.inl ⟨tbl', hL, hk⟩
    · rename_i hcv
      simp only at hL
      rw [lookupA_setA] at hL
      by_cases hLl : L = lang
      · rw [if_pos hLl] at hL
        have htbl' : tbl' = setA ((lookupA st.translationsByLang lang).getD []) fk cv :=
          (Option.some.inj hL).symm
        rw [htbl', lookupA_setA] at hk
        by_cases hkfk : k = fk
        · rw [if_pos hkfk] at hk
          exact Or.inr ⟨hkfk, (Option.some.inj hk) ▸ hcv⟩
        · rw [if_neg hkfk] at hk
          cases h0 : lookupA st.translationsByLang lang with
          | none => rw [h0] at hk; simp [lookupA] at hk
          | some tbl =>
            rw [h0] at hk
            exact Or.inl ⟨tbl, hLl ▸ h0, hk⟩
      · rw [if_neg hLl] at hL
        exact Or.inl ⟨tbl', hL, hk⟩

theorem foldl_procLang_entry (row : Row) (fk : String) :
    ∀ (langs : List String) (st : AggState) (L : String)
      (tbl' : List (String × String)) (k v : String),
      lookupA (langs.foldl (procLang row fk) st).translationsByLang L = some tbl' →
      lookupA tbl' k = some v →
      (∃ tbl, lookupA st.translationsByLang L = some tbl ∧ lookupA tbl k = some v) ∨
        (k = fk ∧ v ≠ "") := by
  intro langs
  induction langs with
  | nil =>
    intro st L tbl' k v hL hk
    exact Or.inl ⟨tbl', hL, hk⟩
  | cons l ls ih =>
    intro st L tbl' k v hL hk
    rw [List.foldl_cons] at hL
    rcases ih _ L tbl' k v hL hk with ⟨tbl, htbl, hv⟩ | hr
    · exact procLang_entry row fk st l L tbl k v htbl hv
    · exact Or.inr hr

theorem initLang_entry (t : List (String × List (String × String))) (lang L : String)
    (tbl' : List (String × String))
    (h : lookupA (initLang t lang) L = some tbl') :
    lookupA t L = some tbl' ∨ tbl' = [] := by
  unfold initLang at h
  split at h
  · exact Or.inl h
  · rw [lookupA_append] at h
    cases h0 : lookupA t L with
    | some tbl => rw [h0] at h; exact Or.inl h
    | none =>
      rw [h0] at h
      simp only [Option.orElse] at h
      by_cases hl : lang = L
      · simp [lookupA, hl] at h
        exact Or.inr h
      · simp [lookupA, hl] at h

theorem foldl_initLang_entry :
    ∀ (langs : List String) (t : List (String × List (String × String)))
      (L : String) (tbl' : List (String × String)),
      lookupA (langs.foldl initLang t) L = some tbl' →
      lookupA t L = some tbl' ∨ tbl' = [] := by
  intro langs
  induction langs with
  | nil => intro t L tbl' h; exact Or.inl h
  | cons l ls ih =>
    intro t L tbl' h
    rw [List.foldl_cons] at h
    rcases ih _ L tbl' h with h' | h'
    · exact initLang_entry t l L tbl' h'
    · exact Or.inr h'

/-- The central aggregation invariant: every stored translation value is
non-empty, and its key is registered in `allKeys`. -/
def EntryInv (st : AggState) : Prop :=
  ∀ L tbl k v, lookupA st.translationsByLang L = some tbl →
    lookupA tbl k = some v → v ≠ "" ∧ k ∈ st.allKeys

theorem entryInv_procRow (base : String) (langs : List String) (st : AggState)
    (row : Row) (h : EntryInv st) : EntryInv (procRow base langs st row) := by
  unfold procRow
  split
  · intro L tbl k v hL hk
    simp only at hL
    rcases foldl_procLang_entry row _ langs st L tbl k v hL hk with ⟨tbl0, h0, hv⟩ | ⟨rfl, hv⟩
    · obtain ⟨hne, hmem⟩ := h L tbl0 k v h0 hv
      refine ⟨hne, ?_⟩
      simp only [mem_addKeySet, foldl_procLang_allKeys]
      exact Or.inl hmem
    · refine ⟨hv, ?_⟩
      simp [mem_addKeySet]
  · exact h

theorem entryInv_procFile (st : AggState) (f : CsvFile) (h : EntryInv st) :
    EntryInv (procFile st f) := by
  unfold procFile
  simp only
  refine foldl_preserve EntryInv _ (fun st' row h' => entryInv_procRow _ _ st' row h') f.rows _ ?_
  intro L tbl k v hL hk
  simp only at hL
  rcases foldl_initLang_entry (languageColumns f.fields) st.translationsByLang L tbl hL with
    h' | rfl
  · exact h L tbl k v h' hk
  · simp [lookupA] at hk

theorem entryInv_processFiles (files : List CsvFile) : EntryInv (processFiles files) := by
  unfold processFiles
  refine foldl_preserve EntryInv _ (fun st f h => entryInv_procFile st f h) files _ ?_
  intro L tbl k v hL hk
  simp [lookupA] at hL

theorem foldl_procLang_table_untouched (row : Row) (fk : String) (L : String)
    (hcell : lookupA row L = none ∨ lookupA row L = some "") :
    ∀ (langs : List String) (st : AggState),
      lookupA (langs.foldl (procLang row fk) st).translationsByLang L =
        lookupA st.translationsByLang L := by
  intro langs
  induction langs with
  | nil => intro st; rfl
  | cons l ls ih =>
    intro st
    rw [List.foldl_cons, ih]
    unfold procLang
    cases hc : lookupA row l with
    | none => rfl
    | some v =>
      simp only
      split
      · rfl
      · rename_i hv
        simp only [lookupA_setA]
        rw [if_neg]
        intro hLl
        subst hLl
        rcases hcell with h | h <;> rw [h] at hc
        · exact Option.noConfusion hc
        · exact hv (Option.some.inj hc).symm

theorem procLang_presence (row : Row) (fk : String) (st : AggState) (lang L : String)
    (h : (lookupA st.translationsByLang L).isSome) :
    (lookupA (procLang row fk st lang).translationsByLang L).isSome := by
  unfold procLang
  cases lookupA row lang with
  | none => exact h
  | some v =>
    simp only
    split
    · exact h
    · simp only [lookupA_setA]
      split
      · simp
      · exact h

theorem procRow_presence (base : String) (langs : List String) (st : AggState) (row : Row)
    (h : (lookupA st.translationsByLang L).isSome) :
    (lookupA (procRow base langs st row).translationsByLang L).isSome := by
  unfold procRow
  split
  · simp only
    exact foldl_preserve
      (fun st' => (lookupA st'.translationsByLang L).isSome)
      (procLang row _) (fun st' l h' => procLang_presence row _ st' l L h') langs st h
  · exact h

theorem initLang_presence (t : List (String × List (String × String))) (lang L : String)
    (h : (lookupA t L).isSome) : (lookupA (initLang t lang) L).isSome := by
  unfold initLang
  split
  · exact h
  · rw [lookupA_append]
    cases h0 : lookupA t L with
    | none => rw [h0] at h; simp at h
    | some tbl => simp [h0, Option.orElse]

theorem initLang_self (t : List (String × List (String × String))) (lang : String) :
    (lookupA (initLang t lang) lang).isSome := by
  unfold initLang
  split
  · assumption
  · rw [lookupA_append]
    rename_i h0
    rw [Option.not_isSome_iff_eq_none] at h0
    simp [h0, Option.orElse, lookupA]

theorem foldl_initLang_presence (L : String) :
    ∀ (langs : List String) (t : List (String × List (String × String))),
      L ∈ langs → (lookupA (langs.foldl initLang t) L).isSome := by
  intro langs
  induction langs with
  | nil => intro t h; simp at h
  | cons l ls ih =>
    intro t h
    rw [List.foldl_cons]
    rcases List.mem_cons.mp h with rfl | h'
    · exact foldl_preserve (fun t' => (lookupA t' L).isSome) initLang
        (fun t' l' h' => initLang_presence t' l' L h') ls _ (initLang_self t L)
    · exact ih _ h'

theorem procFile_presence (st : AggState) (f : CsvFile) (L : String)
    (h : (lookupA st.translationsByLang L).isSome) :
    (lookupA (procFile st f).translationsByLang L).isSome := by
  unfold procFile
  simp only
  refine foldl_preserve (fun st' => (lookupA st'.translationsByLang L).isSome)
    (procRow (baseKey f.relPath) (languageColumns f.fields))
    (fun st' row h' => procRow_presence _ _ st' row h') f.rows _ ?_
  exact foldl_preserve (fun t' => (lookupA t' L).isSome) initLang
    (fun t' l' h' => initLang_presence t' l' L h') (languageColumns f.fields) _ h

theorem procFile_creates (st : AggState) (f : CsvFile) (L : String)
    (hL : L ∈ languageColumns f.fields) :
    (lookupA (procFile st f).translationsByLang L).isSome := by
  unfold procFile
  simp only
  refine foldl_preserve (fun st' => (lookupA st'.translationsByLang L).isSome)
    (procRow (baseKey f.relPath) (languageColumns f.fields))
    (fun st' row h' => procRow_presence _ _ st' row h') f.rows _ ?_
  exact foldl_initLang_presence L (languageColumns f.fields) _ hL

theorem processFiles_presence (files : List CsvFile) (f : CsvFile) (L : String)
    (hf : f ∈ files) (hL : L ∈ languageColumns f.fields) :
    (lookupA (processFiles files).translationsByLang L).isSome := by
  obtain ⟨pre, post, rfl⟩ := List.append_of_mem hf
  unfold processFiles
  rw [List.foldl_append, List.foldl_cons]
  exact foldl_preserve (fun st' => (lookupA st'.translationsByLang L).isSome)
    procFile (fun st' f' h' => procFile_presence st' f' L h') post _
    (procFile_creates _ f L hL)

theorem procRow_table_no_langs (base : String) (st : AggState) (row : Row) :
    (procRow base [] st row).translationsByLang = st.translationsByLang := by
  unfold procRow
  split <;> rfl

theorem procFile_table_no_langs (st : AggState) (f : CsvFile)
    (h : languageColumns f.fields = []) :
    (procFile st f).translationsByLang = st.translationsByLang := by
  unfold procFile
  rw [h]
  simp only [List.foldl_nil]
  exact foldl_preserve (fun st' => st'.translationsByLang = st.translationsByLang)
    (procRow (baseKey f.relPath) [])
    (fun st' row h' => by
      show (procRow (baseKey f.relPath) [] st' row).translationsByLang = _
      rw [procRow_table_no_langs, h']) f.rows _ rfl

theorem processFiles_table_no_langs :
    ∀ (files : List CsvFile) (st : AggState),
      (∀ f ∈ files, languageColumns f.fields = []) →
      (files.foldl procFile st).translationsByLang = st.translationsByLang := by
  intro files
  induction files with
  | nil => intro st h; rfl
  | cons f fs ih =>
    intro st h
    rw [List.foldl_cons, ih _ (fun f' hf' => h f' (List.mem_cons_of_mem f hf')),
      procFile_table_no_langs st f (h f (List.mem_cons_self f fs))]

theorem mem_insertSorted (x z : String) (l : List String) :
    z ∈ insertSorted x l ↔ z = x ∨ z ∈ l := by
  induction l with
  | nil => simp [insertSorted]
  | cons y ys ih =>
    unfold insertSorted
    split
    · simp
    · simp only [List.mem_cons, ih]
      tauto

theorem mem_sortStrings (z : String) (l : List String) :
    z ∈ sortStrings l ↔ z ∈ l := by
  induction l with
  | nil => simp [sortStrings]
  | cons x xs ih =>
    unfold sortStrings
    rw [mem_insertSorted, ih, List.mem_cons]

theorem mem_sortTable (tbl : List (String × String)) (p : String × String)
    (h : p ∈ sortTable tbl) :
    p.1 ∈ tbl.map Prod.fst ∧ p.2 = (lookupA tbl p.1).getD "" := by
  unfold sortTable at h
  rcases List.mem_map.mp h with ⟨k, hk, rfl⟩
  exact ⟨(mem_sortStrings _ _).mp hk, rfl⟩

theorem mem_keyRegistry (ks : List String) (k : String) (h : k ∈ ks) :
    (k, k) ∈ keyRegistry ks := by
  unfold keyRegistry
  exact List.mem_map.mpr ⟨k, (mem_sortStrings _ _).mpr h, rfl⟩

/-! ### Claims -/

/-- C2: the fully qualified key of a surviving row is the base namespace
(relative path with separators normalized to `/`, a trailing `.csv` stripped
case-insensitively, `/` replaced by `.`) dot-joined with the row key, the
bare row key when the base namespace is empty, and `auth/login.csv` with
row key `submit` yields `auth.login.submit`. -/
theorem C2_key_derivation :
    (∀ rel : String, baseKey rel = specBaseKey rel) ∧
    (∀ rel k : String, baseKey rel = "" → fullKeyOf (baseKey rel) k = k) ∧
    fullKeyOf (baseKey "auth/login.csv") "submit" = "auth.login.submit" := by
  refine ⟨baseKey_eq_specBaseKey, ?_, rfl⟩
  intro rel k h
  unfold fullKeyOf
  rw [if_pos h]

/-- Witness for C2 at concrete inputs: a file directly named `.csv` has an
empty base namespace, and its rows keep their bare keys. -/
theorem C2_key_derivation_w :
    baseKey ".csv" = "" ∧ fullKeyOf (baseKey ".csv") "k" = "k" :=
  ⟨rfl, C2_key_derivation.2.1 ".csv" "k" rfl⟩

/-- C3: a cell that is undefined, null, or the empty string contributes no
entry for its language, so aggregated tables (and the emitted per-language
files derived from them) contain only non-empty values. -/
theorem C3_empty_cells_skipped :
    (∀ (base : String) (langs : List String) (st : AggState) (row : Row) (L : String),
      (lookupA row L = none ∨ lookupA row L = some "") →
      lookupA (procRow base langs st row).translationsByLang L =
        lookupA st.translationsByLang L) ∧
    (∀ (files : List CsvFile) (L : String) (tbl : List (String × String)) (k v : String),
      lookupA (processFiles files).translationsByLang L = some tbl →
      lookupA tbl k = some v → v ≠ "") ∧
    (∀ (files : List CsvFile) (L : String) (tbl : List (String × String))
      (p : String × String),
      lookupA (processFiles files).translationsByLang L = some tbl →
      p ∈ sortTable tbl → p.2 ≠ "") := by
  refine ⟨?_, ?_, ?_⟩
  · intro base langs st row L hcell
    unfold procRow
    split
    · simp only
      exact foldl_procLang_table_untouched row _ L hcell langs st
    · rfl
  · intro files L tbl k v hL hk
    exact (entryInv_processFiles files L tbl k v hL hk).1
  · intro files L tbl p hL hp
    obtain ⟨hmem, hval⟩ := mem_sortTable tbl p hp
    obtain ⟨v, hv⟩ := Option.isSome_iff_exists.mp ((lookupA_isSome_iff_mem tbl p.1).mpr hmem)
    have := (entryInv_processFiles files L tbl p.1 v hL hv).1
    rw [hval, hv]
    exact this

/-- Witness for C3: an explicit empty `en` cell on one row leaves the `en`
table untouched, and a two-file run stores only non-empty values. -/
theorem C3_empty_cells_skipped_w :
    lookupA (procRow "b" ["en"] ⟨[("en", [])], [], []⟩ [("key", "k"), ("en", "")]).translationsByLang
        "en" = lookupA (⟨[("en", [])], [], []⟩ : AggState).translationsByLang "en" ∧
    ("1" : String) ≠ "" ∧ (("a.k", "2") : String × String).2 ≠ "" :=
  ⟨C3_empty_cells_skipped.1 "b" ["en"] ⟨[("en", [])], [], []⟩ [("key", "k"), ("en", "")] "en"
      (Or.inr rfl),
    C3_empty_cells_skipped.2.1
      [⟨"b.csv", ["key", "en"], [[("key", "k"), ("en", "1")]]⟩,
        ⟨"a.csv", ["key", "en"], [[("key", "k"), ("en", "2")]]⟩]
      "en" [("b.k", "1"), ("a.k", "2")] "b.k" "1" rfl rfl,
    C3_empty_cells_skipped.2.2
      [⟨"b.csv", ["key", "en"], [[("key", "k"), ("en", "1")]]⟩,
        ⟨"a.csv", ["key", "en"], [[("key", "k"), ("en", "2")]]⟩]
      "en" [("b.k", "1"), ("a.k", "2")] ("a.k", "2") rfl (by decide)⟩

theorem procRow_allKeys_mono (base : String) (langs : List String) (st : AggState)
    (row : Row) (k : String) (h : k ∈ st.allKeys) :
    k ∈ (procRow base langs st row).allKeys := by
  unfold procRow
  split
  · simp only [mem_addKeySet, foldl_procLang_allKeys]
    exact Or.inl h
  · exact h

theorem procFile_allKeys_mono (st : AggState) (f : CsvFile) (k : String)
    (h : k ∈ st.allKeys) : k ∈ (procFile st f).allKeys := by
  unfold procFile
  refine foldl_preserve (fun st' => k ∈ st'.allKeys)
    (procRow (baseKey f.relPath) (languageColumns f.fields))
    (fun st' row h' => procRow_allKeys_mono _ _ st' row k h') f.rows _ ?_
  exact h

theorem procRow_adds_key (base : String) (langs : List String) (st : AggState)
    (row : Row) (k : String) (hk : lookupA row "key" = some k)
    (htrim : trimStr k ≠ "") :
    fullKeyOf base k ∈ (procRow base langs st row).allKeys := by
  unfold procRow
  rw [hk]
  have hvalid : rowKeyValid (some k) = true := by
    unfold rowKeyValid
    simpa using htrim
  rw [if_pos hvalid]
  simp [mem_addKeySet]

/-- C4: after processing all files, `allKeys` contains the fully qualified
key of every surviving row — regardless of whether any language had a
non-empty value for it — and every key stored in any per-language table is
in `allKeys`, hence every key of any emitted per-language flat file appears
in the `key.ts` registry (registry superset of the union of per-language
keys). -/
theorem C4_registry_superset :
    (∀ (files : List CsvFile) (f : CsvFile) (row : Row) (k : String),
      f ∈ files → row ∈ f.rows → lookupA row "key" = some k → trimStr k ≠ "" →
      fullKeyOf (baseKey f.relPath) k ∈ (processFiles files).allKeys) ∧
    (∀ (files : List CsvFile) (L : String) (tbl : List (String × String)),
      lookupA (processFiles files).translationsByLang L = some tbl →
      (∀ k, (lookupA tbl k).isSome → k ∈ (processFiles files).allKeys) ∧
      (∀ p ∈ sortTable tbl, (p.1, p.1) ∈ keyRegistry (processFiles files).allKeys)) := by
  constructor
  · intro files f row k hf hrow hk htrim
    obtain ⟨pre, post, rfl⟩ := List.append_of_mem hf
    unfold processFiles
    rw [List.foldl_append, List.foldl_cons]
    refine foldl_preserve (fun st' => fullKeyOf (baseKey f.relPath) k ∈ st'.allKeys)
      procFile (fun st' f' h' => procFile_allKeys_mono st' f' _ h') post _ ?_
    obtain ⟨rpre, rpost, hrows⟩ := List.append_of_mem hrow
    unfold procFile
    rw [hrows, List.foldl_append, List.foldl_cons]
    refine foldl_preserve (fun st' => fullKeyOf (baseKey f.relPath) k ∈ st'.allKeys)
      (procRow (baseKey f.relPath) (languageColumns f.fields))
      (fun st' row' h' => procRow_allKeys_mono _ _ st' row' _ h') rpost _ ?_
    exact procRow_adds_key (baseKey f.relPath) (languageColumns f.fields) _ row k hk htrim
  · intro files L tbl hL
    constructor
    · intro k hk
      obtain ⟨v, hv⟩ := Option.isSome_iff_exists.mp hk
      exact (entryInv_processFiles files L tbl k v hL hv).2
    · intro p hp
      obtain ⟨hmem, _⟩ := mem_sortTable tbl p hp
      obtain ⟨v, hv⟩ :=
        Option.isSome_iff_exists.mp ((lookupA_isSome_iff_mem tbl p.1).mpr hmem)
      exact mem_keyRegistry _ p.1 (entryInv_processFiles files L tbl p.1 v hL hv).2

/-- Witness for C4: a surviving row whose only language cell is empty still
registers its key, and the registry covers a concrete two-file run. -/
theorem C4_registry_superset_w :
    fullKeyOf (baseKey "a.csv") "k" ∈
      (processFiles [⟨"a.csv", ["key", "en"], [[("key", "k"), ("en", "")]]⟩]).allKeys ∧
    (∀ k, (lookupA [("b.k", "1"), ("a.k", "2")] k).isSome →
      k ∈ (processFiles [⟨"b.csv", ["key", "en"], [[("key", "k"), ("en", "1")]]⟩,
        ⟨"a.csv", ["key", "en"], [[("key", "k"), ("en", "2")]]⟩]).allKeys) ∧
    (∀ p ∈ sortTable [("b.k", "1"), ("a.k", "2")],
      (p.1, p.1) ∈ keyRegistry (processFiles [⟨"b.csv", ["key", "en"], [[("key", "k"), ("en", "1")]]⟩,
        ⟨"a.csv", ["key", "en"], [[("key", "k"), ("en", "2")]]⟩]).allKeys) :=
  ⟨C4_registry_superset.1 [⟨"a.csv", ["key", "en"], [[("key", "k"), ("en", "")]]⟩]
      ⟨"a.csv", ["key", "en"], [[("key", "k"), ("en", "")]]⟩
      [("key", "k"), ("en", "")] "k" (List.mem_singleton.mpr rfl)
      (List.mem_singleton.mpr rfl) rfl (by decide),
    (C4_registry_superset.2
      [⟨"b.csv", ["key", "en"], [[("key", "k"), ("en", "1")]]⟩,
        ⟨"a.csv", ["key", "en"], [[("key", "k"), ("en", "2")]]⟩]
      "en" [("b.k", "1"), ("a.k", "2")] rfl).1,
    (C4_registry_superset.2
      [⟨"b.csv", ["key", "en"], [[("key", "k"), ("en", "1")]]⟩,
        ⟨"a.csv", ["key", "en"], [[("key", "k"), ("en", "2")]]⟩]
      "en" [("b.k", "1"), ("a.k", "2")] rfl).2⟩

/-- C9 counterexample: a header column named `KEY` is excluded from the
language columns, but the row key is read from the property named exactly
`key`, which is absent, so the row is skipped: no key is collected and the
`en` table stays empty — the claim's derived key `t.a` is never formed. -/
theorem C9_case_insensitive_key_cex :
    languageColumns ["KEY", "en"] = ["en"] ∧
    (processFiles [⟨"t.csv", ["KEY", "en"], [[("KEY", "a"), ("en", "v")]]⟩]).allKeys = [] ∧
    lookupA (processFiles [⟨"t.csv", ["KEY", "en"],
      [[("KEY", "a"), ("en", "v")]]⟩]).translationsByLang "en" = some [] :=
  ⟨rfl, rfl, rfl⟩

/-- C9 (amended): any column lower-casing to `key` is excluded from the
language columns, but each row's key cell is read only from the column
named exactly `key`: a row without such a binding is skipped entirely,
and a row with one forms `fullKeyOf base key`. -/
theorem C9_key_column_handling :
    (∀ (fields : List String) (f : String),
      f ∈ languageColumns fields ↔ f ∈ fields ∧ lowerStr f ≠ "key") ∧
    (∀ (base : String) (langs : List String) (st : AggState) (row : Row),
      lookupA row "key" = none → procRow base langs st row = st) ∧
    (∀ (base : String) (langs : List String) (st : AggState) (row : Row) (k : String),
      lookupA row "key" = some k → trimStr k ≠ "" →
      fullKeyOf base k ∈ (procRow base langs st row).allKeys) := by
  refine ⟨?_, ?_, ?_⟩
  · intro fields f
    unfold languageColumns
    rw [List.mem_filter]
    simp [bne_iff_ne]
  · intro base langs st row h
    unfold procRow
    rw [h]
    rfl
  · intro base langs st row k hk htrim
    unfold procRow
    rw [hk]
    have hvalid : rowKeyValid (some k) = true := by
      unfold rowKeyValid
      simpa using htrim
    rw [if_pos hvalid]
    simp [mem_addKeySet]

/-- Witness for C9 (amended) at concrete inputs. -/
theorem C9_key_column_handling_w :
    ("en" ∈ languageColumns ["KEY", "en"] ↔
      "en" ∈ ["KEY", "en"] ∧ lowerStr "en" ≠ "key") ∧
    procRow "t" ["en"] ⟨[("en", [])], [], []⟩ [("KEY", "a"), ("en", "v")] =
      (⟨[("en", [])], [], []⟩ : AggState) ∧
    fullKeyOf "t" "a" ∈
      (procRow "t" ["en"] ⟨[("en", [])], [], []⟩ [("key", "a"), ("en", "v")]).allKeys :=
  ⟨C9_key_column_handling.1 ["KEY", "en"] "en",
    C9_key_column_handling.2.1 "t" ["en"] ⟨[("en", [])], [], []⟩ [("KEY", "a"), ("en", "v")] rfl,
    C9_key_column_handling.2.2 "t" ["en"] ⟨[("en", [])], [], []⟩ [("key", "a"), ("en", "v")]
      "a" rfl (by decide)⟩

/-- C10: every language appearing as a language column of some parsed file
gets an entry in `translationsByLang`, and an output file is emitted for it
in both modes, even when its table is empty. -/
theorem C10_all_header_languages_emitted :
    ∀ (files : List CsvFile) (f : CsvFile) (L : String),
      f ∈ files → L ∈ languageColumns f.fields →
      ∃ tbl, lookupA (processFiles files).translationsByLang L = some tbl ∧
        OutFile.flatLang L (sortTable tbl) ∈ (convertCsvToTs .typescript files).getD [] ∧
        OutFile.nestedLang L (nestObject tbl).1 ∈ (convertCsvToTs .i18next files).getD [] := by
  intro files f L hf hL
  obtain ⟨tbl, htbl⟩ :=
    Option.isSome_iff_exists.mp (processFiles_presence files f L hf hL)
  refine ⟨tbl, htbl, ?_, ?_⟩ <;>
  · unfold convertCsvToTs
    have hne : files.isEmpty = false := by
      cases files with
      | nil => simp at hf
      | cons a as => rfl
    have hmemL : L ∈ (processFiles files).translationsByLang.map Prod.fst :=
      (lookupA_isSome_iff_mem _ L).mp (by rw [htbl]; rfl)
    have hlangs : ((processFiles files).translationsByLang.map Prod.fst).isEmpty = false := by
      cases h : (processFiles files).translationsByLang.map Prod.fst with
      | nil => rw [h] at hmemL; simp at hmemL
      | cons a as => rfl
    rw [hne]
    simp only [Bool.false_eq_true, if_false, hlangs, Option.getD_some]
    first
    | exact List.mem_append_right _
        (List.mem_map.mpr ⟨L, hmemL, by rw [htbl]; rfl⟩)
    | exact List.mem_map.mpr ⟨L, hmemL, by rw [htbl]; rfl⟩

/-- Witness for C10: a file whose only row has an empty `en` cell still
produces an (empty) `en` output in both modes. -/
theorem C10_all_header_languages_emitted_w :
    ∃ tbl, lookupA (processFiles [⟨"a.csv", ["key", "en"],
        [[("key", "k"), ("en", "")]]⟩]).translationsByLang "en" = some tbl ∧
      OutFile.flatLang "en" (sortTable tbl) ∈
        (convertCsvToTs .typescript [⟨"a.csv", ["key", "en"],
          [[("key", "k"), ("en", "")]]⟩]).getD [] ∧
      OutFile.nestedLang "en" (nestObject tbl).1 ∈
        (convertCsvToTs .i18next [⟨"a.csv", ["key", "en"],
          [[("key", "k"), ("en", "")]]⟩]).getD [] :=
  C10_all_header_languages_emitted
    [⟨"a.csv", ["key", "en"], [[("key", "k"), ("en", "")]]⟩]
    ⟨"a.csv", ["key", "en"], [[("key", "k"), ("en", "")]]⟩ "en"
    (List.mem_singleton.mpr rfl) (by decide)

theorem leChars_total : ∀ as bs, leChars as bs = true ∨ leChars bs as = true := by
  intro as
  induction as with
  | nil => intro bs; exact Or.inl rfl
  | cons a as ih =>
    intro bs
    cases bs with
    | nil => exact Or.inr rfl
    | cons b bs =>
      simp only [leChars]
      rcases Nat.lt_trichotomy a.toNat b.toNat with h | h | h
      · rw [if_pos h]; exact Or.inl rfl
      · rw [if_neg (by omega), if_neg (by omega), if_neg (by omega), if_neg (by omega)]
        exact ih bs
      · refine Or.inr ?_
        rw [if_pos h]

theorem leChars_trans : ∀ as bs cs, leChars as bs = true → leChars bs cs = true →
    leChars as cs = true := by
  intro as
  induction as with
  | nil => intro bs cs _ _; rfl
  | cons a as ih =>
    intro bs cs h1 h2
    cases bs with
    | nil => simp [leChars] at h1
    | cons b bs =>
      cases cs with
      | nil => simp [leChars] at h2
      | cons c cs =>
        simp only [leChars] at h1 h2 ⊢
        rcases Nat.lt_trichotomy a.toNat b.toNat with hab | hab | hab
        · rcases Nat.lt_trichotomy b.toNat c.toNat with hbc | hbc | hbc
          · rw [if_pos (by omega)]
          · rw [if_pos (by omega)]
          · rw [if_neg (by omega), if_pos hbc] at h2
            simp at h2
        · rcases Nat.lt_trichotomy b.toNat c.toNat with hbc | hbc | hbc
          · rw [if_pos (by omega)]
          · rw [if_neg (by omega), if_neg (by omega)] at h1 h2 ⊢
            exact ih bs cs h1 h2
          · rw [if_neg (by omega), if_pos hbc] at h2
            simp at h2
        · rw [if_neg (by omega), if_pos hab] at h1
          simp at h1

theorem leStr_total (a b : String) (h : leStr a b = false) : leStr b a = true := by
  rcases leChars_total a.data b.data with h' | h'
  · rw [leStr] at h; rw [h] at h'; exact absurd h' (by simp)
  · exact h'

theorem sorted_insertSorted (x : String) (l : List String)
    (h : List.Sorted (fun a b => leStr a b = true) l) :
    List.Sorted (fun a b => leStr a b = true) (insertSorted x l) := by
  induction l with
  | nil => simp [insertSorted]
  | cons y ys ih =>
    unfold insertSorted
    split
    · rename_i hxy
      refine List.sorted_cons.mpr ⟨?_, h⟩
      intro z hz
      rcases List.mem_cons.mp hz with rfl | hz'
      · exact hxy
      · exact leChars_trans _ _ _ hxy ((List.sorted_cons.mp h).1 z hz')
    · rename_i hxy
      have hs := List.sorted_cons.mp h
      refine List.sorted_cons.mpr ⟨?_, ih hs.2⟩
      intro z hz
      rcases (mem_insertSorted x z ys).mp hz with rfl | hz'
      · exact leStr_total z y (Bool.eq_false_iff.mpr hxy)
      · exact hs.1 z hz'

theorem sorted_sortStrings (l : List String) :
    List.Sorted (fun a b => leStr a b = true) (sortStrings l) := by
  induction l with
  | nil => simp [sortStrings]
  | cons x xs ih => exact sorted_insertSorted x _ ih

/-- C7 counterexample: in `i18next` mode the emitter applies no sorting —
two files whose keys arrive in the order `b.k`, `a.k` produce a nested
object whose top-level keys are `["b", "a"]`, not in lexicographic order. -/
theorem C7_modeB_unsorted_cex :
    convertCsvToTs .i18next
        [⟨"b.csv", ["key", "en"], [[("key", "k"), ("en", "1")]]⟩,
          ⟨"a.csv", ["key", "en"], [[("key", "k"), ("en", "2")]]⟩] =
      some [.nestedLang "en"
        [("b", .obj [("k", .str "1")]), ("a", .obj [("k", .str "2")])]] ∧
    ([("b", JsNode.obj [("k", .str "1")]), ("a", JsNode.obj [("k", .str "2")])].map
      Prod.fst) = ["b", "a"] ∧
    ¬ List.Sorted (fun a b => leStr a b = true) ["b", "a"] := by
  refine ⟨rfl, rfl, ?_⟩
  intro h
  have := (List.sorted_cons.mp h).1 "a" (List.mem_singleton.mpr rfl)
  simp [leStr, leChars] at this

/-- C7 (amended): the `typescript`-mode emitter sorts per-language keys and
the registry keys lexicographically before serialization, but the `i18next`
emitter applies no sorting at all — its output order is the insertion order
of the nested tree, as the run above exhibits. -/
theorem C7_sorting :
    (∀ tbl : List (String × String),
      List.Sorted (fun a b => leStr a b = true) ((sortTable tbl).map Prod.fst)) ∧
    (∀ ks : List String,
      List.Sorted (fun a b => leStr a b = true) ((keyRegistry ks).map Prod.fst)) ∧
    (generateI18nextFiles ["en"] [("en", [("b.k", "1"), ("a.k", "2")])] =
      [.nestedLang "en" [("b", .obj [("k", .str "1")]), ("a", .obj [("k", .str "2")])]]) := by
  refine ⟨?_, ?_, rfl⟩
  · intro tbl
    unfold sortTable
    rw [List.map_map]
    have : (Prod.fst ∘ fun k => ((k, (lookupA tbl k).getD "") : String × String)) = id := by
      funext k; rfl
    rw [this, List.map_id]
    exact sorted_sortStrings _
  · intro ks
    unfold keyRegistry
    rw [List.map_map]
    have : (Prod.fst ∘ fun k => ((k, k) : String × String)) = id := by
      funext k; rfl
    rw [this, List.map_id]
    exact sorted_sortStrings _

/-- C8 counterexample: a run discovering zero fully qualified keys (its only
row has an empty key) but one language column still writes an output file
(the empty `en` table), so "no output file is written at all" fails. -/
theorem C8_zero_keys_cex :
    (processFiles [⟨"a.csv", ["key", "en"], [[("key", "")]]⟩]).allKeys = [] ∧
    convertCsvToTs .typescript [⟨"a.csv", ["key", "en"], [[("key", "")]]⟩] =
      some [.flatLang "en" []] ∧
    convertCsvToTs .typescript [⟨"a.csv", ["key", "en"], [[("key", "")]]⟩] ≠ none ∧
    convertCsvToTs .typescript [⟨"a.csv", ["key", "en"], [[("key", "")]]⟩] ≠ some [] := by
  have hval : convertCsvToTs .typescript [⟨"a.csv", ["key", "en"], [[("key", "")]]⟩] =
      some [.flatLang "en" []] := rfl
  refine ⟨rfl, hval, ?_, ?_⟩
  · rw [hval]; exact fun h => Option.noConfusion h
  · rw [hval]; intro h; injection h with h'; exact List.noConfusion h'

/-- C8 (amended): a run whose parsed CSVs yield zero language columns writes
nothing; a run discovering zero keys skips only the `key.ts` registry, while
a (possibly empty) flat file is still written for each discovered language. -/
theorem C8_empty_runs :
    (∀ (fmt : OutFormat) (files : List CsvFile),
      (∀ f ∈ files, languageColumns f.fields = []) →
      convertCsvToTs fmt files = none) ∧
    (∀ files : List CsvFile,
      (processFiles files).allKeys = [] →
      ∀ o ∈ (convertCsvToTs .typescript files).getD [],
        ∃ l tbl, o = OutFile.flatLang l tbl) := by
  constructor
  · intro fmt files h
    have htab : (processFiles files).translationsByLang = [] :=
      processFiles_table_no_langs files _ h
    simp [convertCsvToTs, htab]
  · intro files hk o ho
    simp only [convertCsvToTs] at ho
    split at ho
    · simp at ho
    · split at ho
      · simp at ho
      · simp only [Option.getD_some, generateTypeScriptFiles, hk, List.isEmpty_nil,
          if_true, List.nil_append] at ho
        rcases List.mem_map.mp ho with ⟨l, _, rfl⟩
        exact ⟨l, _, rfl⟩

/-- Witness for C8 (amended): a key-only CSV produces no output at all, and
the zero-key run from the counterexample emits only per-language flat files. -/
theorem C8_empty_runs_w :
    convertCsvToTs .typescript [⟨"a.csv", ["key"], [[("key", "x")]]⟩] = none ∧
    (∀ o ∈ (convertCsvToTs .typescript
        [⟨"a.csv", ["key", "en"], [[("key", "")]]⟩]).getD [],
      ∃ l tbl, o = OutFile.flatLang l tbl) :=
  ⟨C8_empty_runs.1 .typescript [⟨"a.csv", ["key"], [[("key", "x")]]⟩] (by decide),
    C8_empty_runs.2 [⟨"a.csv", ["key", "en"], [[("key", "")]]⟩] rfl⟩

@[simp] theorem lookupA_nil {α : Type} (k : String) : lookupA ([] : List (String × α)) k = none :=
  rfl

theorem lookupA_cons_self {α : Type} (k : String) (v : α) (rest : List (String × α)) :
    lookupA ((k, v) :: rest) k = some v := by
  simp [lookupA]

theorem lookupA_cons_ne {α : Type} {k k' : String} (h : ¬(k = k')) (v : α)
    (rest : List (String × α)) : lookupA ((k, v) :: rest) k' = lookupA rest k' := by
  simp [lookupA, h]

/-- C1: two discovered files defining the same (language, fully qualified
key): with different values, the table ends holding the later file's value
and exactly one warning naming the old and the new value is recorded; with
identical values the table holds that value and no warning is recorded. -/
theorem C1_conflict_last_writer_wins
    (r1 r2 k1 k2 L v1 v2 : String)
    (hL : lowerStr L ≠ "key")
    (hk1 : trimStr k1 ≠ "") (hk2 : trimStr k2 ≠ "")
    (hv1 : v1 ≠ "") (hv2 : v2 ≠ "")
    (hfk : fullKeyOf (baseKey r1) k1 = fullKeyOf (baseKey r2) k2) :
    lookupA (processFiles
        [⟨r1, ["key", L], [[("key", k1), (L, v1)]]⟩,
          ⟨r2, ["key", L], [[("key", k2), (L, v2)]]⟩]).translationsByLang L =
      some [(fullKeyOf (baseKey r2) k2, v2)] ∧
    (processFiles [⟨r1, ["key", L], [[("key", k1), (L, v1)]]⟩,
        ⟨r2, ["key", L], [[("key", k2), (L, v2)]]⟩]).warns =
      (if v1 = v2 then [] else [⟨L, fullKeyOf (baseKey r2) k2, v1, v2⟩]) ∧
    (processFiles [⟨r1, ["key", L], [[("key", k1), (L, v1)]]⟩,
        ⟨r2, ["key", L], [[("key", k2), (L, v2)]]⟩]).allKeys =
      [fullKeyOf (baseKey r2) k2] := by
  have hLK : L ≠ "key" := by
    intro h
    exact hL (by rw [h]; rfl)
  have hne1 : ¬ ("key" = L) := fun h => hLK h.symm
  have hkv1 : rowKeyValid (some k1) = true := by
    unfold rowKeyValid
    simpa using hk1
  have hkv2 : rowKeyValid (some k2) = true := by
    unfold rowKeyValid
    simpa using hk2
  have h1 : (lowerStr "key" != "key") = false := rfl
  have h2 : (lowerStr L != "key") = true := by simpa using hL
  have hlc : languageColumns ["key", L] = [L] := by
    simp [languageColumns, List.filter, h1, h2]
  have hF1 : procFile ⟨[], [], []⟩ ⟨r1, ["key", L], [[("key", k1), (L, v1)]]⟩ =
      ⟨[(L, [(fullKeyOf (baseKey r1) k1, v1)])], [fullKeyOf (baseKey r1) k1], []⟩ := by
    unfold procFile
    rw [hlc]
    simp only [List.foldl_cons, List.foldl_nil]
    unfold initLang
    simp only [lookupA_nil, Option.isSome_none, Bool.false_eq_true, if_false,
      List.nil_append]
    unfold procRow
    rw [lookupA_cons_self, hkv1, if_pos rfl]
    simp only [Option.getD_some, List.foldl_cons, List.foldl_nil]
    unfold procLang
    rw [lookupA_cons_ne hne1, lookupA_cons_self]
    simp only [if_neg hv1, lookupA_cons_self, Option.getD_some, lookupA_nil]
    simp [setA, addKeySet]

  have hF2 : procFile ⟨[(L, [(fullKeyOf (baseKey r1) k1, v1)])],
        [fullKeyOf (baseKey r1) k1], []⟩ ⟨r2, ["key", L], [[("key", k2), (L, v2)]]⟩ =
      ⟨[(L, [(fullKeyOf (baseKey r2) k2, v2)])], [fullKeyOf (baseKey r2) k2],
        if v1 = v2 then [] else [⟨L, fullKeyOf (baseKey r2) k2, v1, v2⟩]⟩ := by
    unfold procFile
    rw [hlc]
    simp only [List.foldl_cons, List.foldl_nil]
    unfold initLang
    rw [lookupA_cons_self]
    simp only [Option.isSome_some, if_true]
    unfold procRow
    rw [lookupA_cons_self, hkv2, if_pos rfl]
    simp only [Option.getD_some, List.foldl_cons, List.foldl_nil]
    unfold procLang
    rw [lookupA_cons_ne hne1, lookupA_cons_self]
    simp only [if_neg hv2, lookupA_cons_self, Option.getD_some]
    rw [hfk, lookupA_cons_self]
    by_cases hv : v1 = v2
    · subst hv
      simp [setA, addKeySet, AggState.mk.injEq]
    · simp [setA, addKeySet, AggState.mk.injEq, hv, hv1]
  show _ ∧ _ ∧ _
  rw [show processFiles [⟨r1, ["key", L], [[("key", k1), (L, v1)]]⟩,
      ⟨r2, ["key", L], [[("key", k2), (L, v2)]]⟩] =
      procFile (procFile ⟨[], [], []⟩ ⟨r1, ["key", L], [[("key", k1), (L, v1)]]⟩)
        ⟨r2, ["key", L], [[("key", k2), (L, v2)]]⟩ from rfl,
    hF1, hF2]
  exact ⟨lookupA_cons_self L _ [], rfl, rfl⟩

/-- Witness for C1, in both the differing-value and identical-value cases. -/
theorem C1_conflict_last_writer_wins_w :
    (lookupA (processFiles
        [⟨"a.csv", ["key", "en"], [[("key", "p"), ("en", "x")]]⟩,
          ⟨"a.csv", ["key", "en"], [[("key", "p"), ("en", "y")]]⟩]).translationsByLang "en" =
      some [(fullKeyOf (baseKey "a.csv") "p", "y")] ∧
    (processFiles [⟨"a.csv", ["key", "en"], [[("key", "p"), ("en", "x")]]⟩,
        ⟨"a.csv", ["key", "en"], [[("key", "p"), ("en", "y")]]⟩]).warns =
      (if "x" = "y" then [] else [⟨"en", fullKeyOf (baseKey "a.csv") "p", "x", "y"⟩]) ∧
    (processFiles [⟨"a.csv", ["key", "en"], [[("key", "p"), ("en", "x")]]⟩,
        ⟨"a.csv", ["key", "en"], [[("key", "p"), ("en", "y")]]⟩]).allKeys =
      [fullKeyOf (baseKey "a.csv") "p"]) ∧
    (processFiles [⟨"a.csv", ["key", "en"], [[("key", "p"), ("en", "x")]]⟩,
        ⟨"a.csv", ["key", "en"], [[("key", "p"), ("en", "x")]]⟩]).warns =
      (if "x" = "x" then [] else [⟨"en", fullKeyOf (baseKey "a.csv") "p", "x", "x"⟩]) :=
  ⟨C1_conflict_last_writer_wins "a.csv" "a.csv" "p" "p" "en" "x" "y"
      (by decide) (by decide) (by decide) (by decide) (by decide) rfl,
    (C1_conflict_last_writer_wins "a.csv" "a.csv" "p" "p" "en" "x" "x"
      (by decide) (by decide) (by decide) (by decide) (by decide) rfl).2.1⟩

/-! ### Nested-tree lemmas -/

/-- Navigate a (non-empty) segment path through a nested object. -/
def getPath (o : List (String × JsNode)) : List String → Option JsNode
  | [] => none
  | [x] => lookupA o x
  | x :: y :: rest =>
    match lookupA o x with
    | some (.obj child) => getPath child (y :: rest)
    | _ => none

theorem lookupA_setA_self {α : Type} (o : List (String × α)) (x : String) (v : α) :
    lookupA (setA o x v) x = some v := by
  rw [lookupA_setA]
  simp

theorem setA_self {α : Type} (o : List (String × α)) (x : String) (v : α)
    (h : lookupA o x = some v) : setA o x v = o := by
  induction o with
  | nil => simp [lookupA] at h
  | cons p rest ih =>
    obtain ⟨pk, pv⟩ := p
    by_cases hx : pk = x
    · subst hx
      rw [lookupA_cons_self] at h
      injection h with h
      simp [setA, h]
    · rw [lookupA_cons_ne hx] at h
      simp [setA, hx, ih h]

/-- C5: prefix collisions in `nestObject`'s insertion step. If the final
segment of a key's path lands on an existing internal node, the node is
replaced by the key's string value with exactly one diagnostic; if an inner
segment already holds a string value, the insertion is abandoned entirely
(the object is returned unchanged) with exactly one diagnostic. -/
theorem C5_tree_conflicts (key v : String) :
    (∀ (p : List String) (o : List (String × JsNode)) (x : String)
      (w : List (String × JsNode)),
      getPath o (p ++ [x]) = some (.obj w) →
      getPath (insertParts key o (p ++ [x]) v).1 (p ++ [x]) = some (.str v) ∧
      (insertParts key o (p ++ [x]) v).2 = [.overwriteNode x key v]) ∧
    (∀ (p : List String) (o : List (String × JsNode)) (x : String)
      (rest : List String) (s : String), rest ≠ [] →
      getPath o (p ++ [x]) = some (.str s) →
      insertParts key o (p ++ (x :: rest)) v = (o, [.abandonPath x key])) := by
  constructor
  · intro p
    induction p with
    | nil =>
      intro o x w h
      simp only [List.nil_append, getPath] at h ⊢
      simp only [insertParts, h]
      exact ⟨lookupA_setA_self o x (.str v), trivial⟩
    | cons y p' ih =>
      intro o x w h
      obtain ⟨z, zs, hz⟩ : ∃ z zs, p' ++ [x] = z :: zs := by
        cases p' with
        | nil => exact ⟨x, [], rfl⟩
        | cons a as => exact ⟨a, as ++ [x], rfl⟩
      simp only [List.cons_append, hz, getPath] at h ⊢
      cases hy : lookupA o y with
      | none => rw [hy] at h; simp at h
      | some n =>
        cases n with
        | str s => rw [hy] at h; simp at h
        | obj child =>
          rw [hy] at h
          simp only at h
          have ih' := ih child x w (by rw [hz]; exact h)
          rw [hz] at ih'
          simp only [insertParts, hy, lookupA_setA_self]
          exact ih'
  · intro p
    induction p with
    | nil =>
      intro o x rest s hrest h
      simp only [List.nil_append, getPath] at h ⊢
      obtain ⟨r0, rs, rfl⟩ : ∃ r0 rs, rest = r0 :: rs := by
        cases rest with
        | nil => exact absurd rfl hrest
        | cons r0 rs => exact ⟨r0, rs, rfl⟩
      simp only [insertParts, h]
    | cons y p' ih =>
      intro o x rest s hrest h
      obtain ⟨z, zs, hz⟩ : ∃ z zs, p' ++ [x] = z :: zs := by
        cases p' with
        | nil => exact ⟨x, [], rfl⟩
        | cons a as => exact ⟨a, as ++ [x], rfl⟩
      simp only [List.cons_append, hz, getPath] at h
      cases hy : lookupA o y with
      | none => rw [hy] at h; simp at h
      | some n =>
        cases n with
        | str s' => rw [hy] at h; simp at h
        | obj child =>
          rw [hy] at h
          simp only at h
          have ih' := ih child x rest s hrest (by rw [hz]; exact h)
          obtain ⟨z', zs', hz'⟩ : ∃ z' zs', p' ++ (x :: rest) = z' :: zs' := by
            cases p' with
            | nil => exact ⟨x, rest, rfl⟩
            | cons a as => exact ⟨a, as ++ (x :: rest), rfl⟩
          simp only [List.cons_append, hz', insertParts, hy]
          rw [← hz', ih']
          simp only
          rw [setA_self o y (.obj child) hy]

/-- Witness for C5: overwriting the node at `a` with a leaf, and abandoning
the insertion of `a.b.c` blocked by the string at `a`. -/
theorem C5_tree_conflicts_w :
    (getPath (insertParts "a" [("a", .obj [("b", .str "1")])] ["a"] "v").1 ["a"] =
        some (.str "v") ∧
      (insertParts "a" [("a", .obj [("b", .str "1")])] ["a"] "v").2 =
        [.overwriteNode "a" "a" "v"]) ∧
    insertParts "a.b.c" [("a", .str "s")] ["a", "b", "c"] "v" =
      ([("a", .str "s")], [.abandonPath "a" "a.b.c"]) :=
  ⟨(C5_tree_conflicts "a" "v").1 [] [("a", .obj [("b", .str "1")])] "a"
      [("b", .str "1")] rfl,
    (C5_tree_conflicts "a.b.c" "v").2 [] [("a", .str "s")] "a" ["b", "c"] "s"
      (by simp) rfl⟩

/-! ### Round trip: flattening a nested tree -/

/-- Boolean segment-path comparison: `preB p q` iff `p` is an initial
segment of `q`. -/
def preB : List String → List String → Bool
  | [], _ => true
  | _ :: _, [] => false
  | a :: p, b :: q => a == b && preB p q

/-- All (path, value) leaves of a nested object, in serialization order. -/
def flattenP : List (String × JsNode) → List (List String × String)
  | [] => []
  | (k, .str s) :: rest => ([k], s) :: flattenP rest
  | (k, .obj o) :: rest =>
    (flattenP o).map (fun q => (k :: q.1, q.2)) ++ flattenP rest

/-- Flattening a nested object back to a flat table, joining the nesting
levels with `.` (the operation the round-trip property is stated with). -/
def flattenF (o : List (String × JsNode)) : List (String × String) :=
  (flattenP o).map (fun q => (joinKey q.1, q.2))

theorem flattenP_nil : flattenP [] = [] := by
  simp [flattenP]

theorem flattenP_cons_str (k s : String) (rest : List (String × JsNode)) :
    flattenP ((k, .str s) :: rest) = ([k], s) :: flattenP rest := by
  simp [flattenP]

theorem flattenP_cons_obj (k : String) (o rest : List (String × JsNode)) :
    flattenP ((k, .obj o) :: rest) =
      (flattenP o).map (fun q => (k :: q.1, q.2)) ++ flattenP rest := by
  simp [flattenP]

theorem flattenP_append (l1 l2 : List (String × JsNode)) :
    flattenP (l1 ++ l2) = flattenP l1 ++ flattenP l2 := by
  induction l1 with
  | nil => simp [flattenP]
  | cons p rest ih =>
    obtain ⟨k, n⟩ := p
    cases n with
    | str s => simp [flattenP, ih]
    | obj o => simp [flattenP, ih]

theorem lookupA_split {α : Type} (o : List (String × α)) (x : String) (w : α)
    (h : lookupA o x = some w) :
    ∃ A B, o = A ++ (x, w) :: B ∧ lookupA A x = none ∧
      ∀ v' : α, setA o x v' = A ++ (x, v') :: B := by
  induction o with
  | nil => simp [lookupA] at h
  | cons p rest ih =>
    obtain ⟨pk, pv⟩ := p
    by_cases hx : pk = x
    · subst hx
      rw [lookupA_cons_self] at h
      injection h with h
      subst h
      exact ⟨[], rest, rfl, rfl, fun v' => by simp [setA]⟩
    · rw [lookupA_cons_ne hx] at h
      obtain ⟨A, B, hAB, hA, hset⟩ := ih h
      refine ⟨(pk, pv) :: A, B, by rw [hAB]; rfl, ?_, ?_⟩
      · rw [lookupA_cons_ne hx, hA]
      · intro v'
        simp [setA, hx, hset v']

theorem leaf_mem_flattenP (o : List (String × JsNode)) (x s : String)
    (h : lookupA o x = some (.str s)) : ([x], s) ∈ flattenP o := by
  obtain ⟨A, B, rfl, -, -⟩ := lookupA_split o x (.str s) h
  rw [flattenP_append, flattenP_cons_str]
  exact List.mem_append_right _ (List.mem_cons_self _ _)

theorem child_mem_flattenP (o : List (String × JsNode)) (x : String)
    (c : List (String × JsNode)) (q : List String) (s : String)
    (hx : lookupA o x = some (.obj c)) (hq : (q, s) ∈ flattenP c) :
    (x :: q, s) ∈ flattenP o := by
  obtain ⟨A, B, rfl, -, -⟩ := lookupA_split o x (.obj c) hx
  rw [flattenP_append, flattenP_cons_obj]
  refine List.mem_append_right _ ?_
  exact List.mem_append_left _ (List.mem_map.mpr ⟨(q, s), hq, rfl⟩)

theorem insert_flatten (key v : String) :
    ∀ (parts : List String) (o : List (String × JsNode)), parts ≠ [] →
      (∀ q ∈ (flattenP o).map Prod.fst, preB parts q = false ∧ preB q parts = false) →
      (flattenP (insertParts key o parts v).1).Perm ((parts, v) :: flattenP o) := by
  intro parts
  induction parts with
  | nil => intro o h; exact absurd rfl h
  | cons x tl ih =>
    intro o _ hsep
    cases tl with
    | nil =>
      cases hx : lookupA o x with
      | none =>
        rw [show (insertParts key o [x] v).1 = setA o x (.str v) by
          simp [insertParts, hx]]
        rw [setA_fresh o x _ hx, flattenP_append, flattenP_cons_str, flattenP_nil]
        exact List.perm_append_singleton _ _
      | some w =>
        cases w with
        | str s =>
          exfalso
          have hm : [x] ∈ (flattenP o).map Prod.fst :=
            List.mem_map.mpr ⟨([x], s), leaf_mem_flattenP o x s hx, rfl⟩
          have := (hsep [x] hm).1
          simp [preB] at this
        | obj c =>
          have hfc : flattenP c = [] := by
            cases hfc : flattenP c with
            | nil => rfl
            | cons hd tlc =>
              exfalso
              have hmem : (x :: hd.1, hd.2) ∈ flattenP o :=
                child_mem_flattenP o x c hd.1 hd.2 hx
                  (by rw [hfc]; exact List.mem_cons_self _ _)
              have hm : (x :: hd.1) ∈ (flattenP o).map Prod.fst :=
                List.mem_map.mpr ⟨(x :: hd.1, hd.2), hmem, rfl⟩
              have := (hsep (x :: hd.1) hm).1
              simp [preB] at this
          obtain ⟨A, B, hAB, -, hset⟩ := lookupA_split o x (.obj c) hx
          rw [show (insertParts key o [x] v).1 = setA o x (.str v) by
            simp [insertParts, hx]]
          rw [hset (.str v), hAB, flattenP_append, flattenP_append,
            flattenP_cons_str, flattenP_cons_obj, hfc]
          simp only [List.map_nil, List.nil_append]
          exact List.perm_middle
    | cons y rest =>
      cases hx : lookupA o x with
      | some w =>
        cases w with
        | str s =>
          exfalso
          have hm : [x] ∈ (flattenP o).map Prod.fst :=
            List.mem_map.mpr ⟨([x], s), leaf_mem_flattenP o x s hx, rfl⟩
          have := (hsep [x] hm).2
          simp [preB] at this
        | obj child =>
          have hsub : ∀ q ∈ (flattenP child).map Prod.fst,
              preB (y :: rest) q = false ∧ preB q (y :: rest) = false := by
            intro q hq
            rcases List.mem_map.mp hq with ⟨⟨q', s'⟩, hq', hq'eq⟩
            have hmem : (x :: q', s') ∈ flattenP o :=
              child_mem_flattenP o x child q' s' hx hq'
            have hm : (x :: q') ∈ (flattenP o).map Prod.fst :=
              List.mem_map.mpr ⟨(x :: q', s'), hmem, rfl⟩
            have h1 := (hsep (x :: q') hm).1
            have h2 := (hsep (x :: q') hm).2
            simp only [preB, beq_self_eq_true, Bool.true_and] at h1 h2
            subst hq'eq
            exact ⟨h1, h2⟩
          have hIH := ih child (by simp) hsub
          obtain ⟨A, B, hAB, -, hset⟩ := lookupA_split o x (.obj child) hx
          rw [show (insertParts key o (x :: y :: rest) v).1 =
            setA o x (.obj (insertParts key child (y :: rest) v).1) by
            simp [insertParts, hx]]
          rw [hset _, hAB, flattenP_append, flattenP_append,
            flattenP_cons_obj, flattenP_cons_obj]
          refine List.Perm.trans
            (List.Perm.append_left (flattenP A)
              (List.Perm.append_right (flattenP B)
                (hIH.map (fun q => (x :: q.1, q.2))))) ?_
          simp only [List.map_cons]
          rw [List.cons_append]
          exact List.perm_middle
      | none =>
        have hIH := ih ([] : List (String × JsNode)) (by simp)
          (by intro q hq; rw [flattenP_nil] at hq; simp at hq)
        rw [flattenP_nil] at hIH
        rw [show (insertParts key o (x :: y :: rest) v).1 =
          setA o x (.obj (insertParts key [] (y :: rest) v).1) by
          simp [insertParts, hx]]
        rw [setA_fresh o x _ hx, flattenP_append, flattenP_cons_obj, flattenP_nil,
          List.append_nil]
        refine List.Perm.trans
          (List.Perm.append_left (flattenP o)
            (hIH.map (fun q => (x :: q.1, q.2)))) ?_
        simp only [List.map_cons, List.map_nil]
        exact List.perm_append_singleton _ _

theorem nestObject_fst_aux :
    ∀ (flat : List (String × String)) (o : List (String × JsNode)) (d : List NestDiag),
      (flat.foldl
        (fun acc kv =>
          let r := insertParts kv.1 acc.1 (splitKey kv.1) kv.2
          (r.1, acc.2 ++ r.2)) (o, d)).1 =
      flat.foldl (fun o kv => (insertParts kv.1 o (splitKey kv.1) kv.2).1) o := by
  intro flat
  induction flat with
  | nil => intro o d; rfl
  | cons kv rest ih => intro o d; exact ih _ _

theorem nestObject_fst (flat : List (String × String)) :
    (nestObject flat).1 =
      flat.foldl (fun o kv => (insertParts kv.1 o (splitKey kv.1) kv.2).1) [] := by
  unfold nestObject
  exact nestObject_fst_aux flat [] []

theorem foldTree_flatten :
    ∀ (flat : List (String × String)) (o : List (String × JsNode)),
      (∀ q ∈ (flattenP o).map Prod.fst, ∀ kv ∈ flat,
        preB (splitKey kv.1) q = false ∧ preB q (splitKey kv.1) = false) →
      ((flat.map (fun kv => splitKey kv.1)).Pairwise
        (fun a b => preB a b = false ∧ preB b a = false)) →
      (flattenP (flat.foldl
        (fun o kv => (insertParts kv.1 o (splitKey kv.1) kv.2).1) o)).Perm
        ((flat.map (fun kv => (splitKey kv.1, kv.2))) ++ flattenP o) := by
  intro flat
  induction flat with
  | nil =>
    intro o _ _
    simp
  | cons kv rest ih =>
    intro o hsep hpw
    obtain ⟨k, v⟩ := kv
    simp only [List.foldl_cons, List.map_cons]
    have h1 : ∀ q ∈ (flattenP o).map Prod.fst,
        preB (splitKey k) q = false ∧ preB q (splitKey k) = false := by
      intro q hq
      exact hsep q hq (k, v) (List.mem_cons_self _ _)
    have hins := insert_flatten k v (splitKey k) o (splitKey_ne_nil k) h1
    have hpw' := List.pairwise_cons.mp hpw
    have hsub : ∀ q ∈ (flattenP (insertParts k o (splitKey k) v).1).map Prod.fst,
        ∀ kv' ∈ rest,
        preB (splitKey kv'.1) q = false ∧ preB q (splitKey kv'.1) = false := by
      intro q hq kv' hkv'
      have hq' : q ∈ ((splitKey k, v) :: flattenP o).map Prod.fst :=
        ((hins.map Prod.fst).mem_iff).mp hq
      rw [List.map_cons] at hq'
      rcases List.mem_cons.mp hq' with rfl | hqo
      · have := hpw'.1 (splitKey kv'.1) (List.mem_map.mpr ⟨kv', hkv', rfl⟩)
        exact ⟨this.2, this.1⟩
      · exact hsep q hqo kv' (List.mem_cons_of_mem _ hkv')
    have hIH := ih (insertParts k o (splitKey k) v).1 hsub hpw'.2
    refine hIH.trans ?_
    refine List.Perm.trans (List.Perm.append_left _ hins) ?_
    rw [List.cons_append]
    exact List.perm_middle

/-- C6: for a flat table in which no key's dot-segment path is an initial
segment of another key's path, flattening the nested tree built by
`nestObject` (joining nesting levels with `.`) recovers exactly the
original flat table, as a permutation of its entries. -/
theorem C6_flat_nested_roundtrip (t : List (String × String))
    (h : (t.map (fun kv => splitKey kv.1)).Pairwise
      (fun a b => preB a b = false ∧ preB b a = false)) :
    (flattenF (nestObject t).1).Perm t := by
  unfold flattenF
  rw [nestObject_fst]
  have hf := foldTree_flatten t []
    (by rw [flattenP_nil]; intro q hq; simp at hq) h
  rw [flattenP_nil, List.append_nil] at hf
  have hm := hf.map (fun q => (joinKey q.1, q.2))
  rw [List.map_map] at hm
  have heq : t.map ((fun q : List String × String => (joinKey q.1, q.2)) ∘
      (fun kv : String × String => (splitKey kv.1, kv.2))) = t := by
    have : ∀ a ∈ t, ((fun q : List String × String => (joinKey q.1, q.2)) ∘
        (fun kv : String × String => (splitKey kv.1, kv.2))) a = id a := by
      intro a _
      simp only [Function.comp_apply, joinKey_splitKey, id]
    rw [List.map_congr_left this, List.map_id]
  rw [heq] at hm
  exact hm

/-- Witness for C6 on a prefix-collision-free table. -/
theorem C6_flat_nested_roundtrip_w :
    (flattenF (nestObject [("a.b", "1"), ("a.c", "2"), ("d", "3")]).1).Perm
      [("a.b", "1"), ("a.c", "2"), ("d", "3")] :=
  C6_flat_nested_roundtrip [("a.b", "1"), ("a.c", "2"), ("d", "3")] (by decide)

end CsvI18n
